import Mathlib

/-!
# Verification of the qht-rs quotient hash table filters

A shallow embedding of the `qht` crate: the bit-packed store, fingerprint
derivation, addressing, and the three filter variants QHTc
(`QuotientHashTable`), dQHTc (`DQuotientHashTable`) and dqQHTc
(`DQQuotientHashTable`), together with proofs of the specified properties.

Modelling conventions:
* Machine integers (`u64`, `usize`) are `Nat`; wrap-around is written
  explicitly as `% 2^64` where the source can overflow (the `f.value += 1`
  increment in fingerprint derivation).
* The process-wide hash (`DefaultHasher`, which absorbs a sequence of `u64`
  writes and produces a `u64`) is an abstract parameter
  `hash : List Nat → Nat`: `Element::get_hash(seed)` hashes the stream
  `[value, seed]`, and `basicqht::get_hash(e, base, counter)` hashes
  `[value, base, counter]`.
* The RNG (`StdRng`) is an external entropy source; it is modelled as a
  stream of naturals with a cursor, and `gen_range(0, n)` (uniform in
  `[0, n)`) is modelled as the next stream value reduced `% n`.
* The underlying store `DenseBitSetExtended` is an external crate; it is
  modelled from the spec (§4.1 BitStore): a fixed-length little-endian bit
  buffer with `extract_u64` / `insert_u64` at arbitrary bit offsets.
* Panics are modelled as `Option.none`; the unbounded fingerprint loop is
  given explicit fuel and returns `Option Nat`.
-/

namespace Qht

/-- Modelled from the spec (§4.1 BitStore): the external crate type
`DenseBitSetExtended`, a densely packed bit buffer of fixed bit length;
bit `i` of the stream is `bits i`, and `len` is the allocated length. -/
structure BitStore where
  len : Nat
  bits : Nat → Bool

/-- Little-endian extraction of a `w`-bit unsigned integer starting at bit
`off`: bit `off` is the least-significant bit of the result. -/
def extractBits (bits : Nat → Bool) : Nat → Nat → Nat
  | _, 0 => 0
  | off, w + 1 => (cond (bits off) 1 0) + 2 * extractBits bits (off + 1) w

/-- Overwrite the `w`-bit region starting at `off` with the low `w` bits of
`v`; bits outside the region are untouched. -/
def insertBits (v off w : Nat) (bits : Nat → Bool) : Nat → Bool :=
  fun i => if off ≤ i ∧ i < off + w then v.testBit (i - off) else bits i

/-- Modelled from the spec (§4.1): `extract(offset, width)` returns the
`width`-bit unsigned integer stored starting at bit `offset`. -/
def BitStore.extract_u64 (s : BitStore) (off w : Nat) : Nat :=
  extractBits s.bits off w

/-- Modelled from the spec (§4.1): `insert(value, offset, width)` overwrites
the `width`-bit region at `offset` with the low `width` bits of `value`;
the length is fixed at construction and does not change. -/
def BitStore.insert_u64 (s : BitStore) (v off w : Nat) : BitStore :=
  ⟨s.len, insertBits v off w s.bits⟩

/-- Modelled from the spec (§4.1): `with_capacity(n)` allocates `n` bits,
all initialised to zero. -/
def BitStore.with_capacity (n : Nat) : BitStore :=
  ⟨n, fun _ => false⟩

/-- Wrap-around bound of the `u64` type (`Element.value` is a `u64`). -/
def U64 : Nat := 2 ^ 64

/-- Models `rand::rngs::StdRng`, an external entropy source owned by the
filter: an arbitrary stream of naturals `seq` with a cursor `idx`.
`gen_range(0, n)`, uniform in `[0, n)`, is modelled as the next stream
value reduced `% n`. -/
structure Rng where
  seq : Nat → Nat
  idx : Nat

/-- Advance the RNG cursor past one consumed value. -/
def Rng.next (r : Rng) : Rng := ⟨r.seq, r.idx + 1⟩

/-- Models `rng.gen_range(0, n)`: one value in `[0, n)` plus the advanced
generator. -/
def Rng.genRange (r : Rng) (n : Nat) : Nat × Rng :=
  (r.seq r.idx % n, r.next)

/-- The filter state shared by the three variants (`QuotientHashTable`,
`DQuotientHashTable`, `DQQuotientHashTable` have identical fields in the
source except that the first two also own the RNG, which is passed
explicitly here). -/
structure QuotientHashTable where
  n_cells : Nat
  n_buckets : Nat
  fingerprint_size : Nat
  pow_fingerprint_size : Nat
  qht : BitStore

namespace QuotientHashTable

/-- Translates `Element::get_hash(self, seed)`: `DefaultHasher` absorbs the
element's value and then the seed; the hasher itself is the abstract
parameter `hash` over the absorbed stream. -/
def elemHash (hash : List Nat → Nat) (value seed : Nat) : Nat :=
  hash [value, seed]

/-- Translates `get_fingerprint_from_bucket`: read the fingerprint stored
at `(address, bucket_number)`, at bit offset
`(address * n_buckets + bucket_number) * fingerprint_size`. -/
def get_fingerprint_from_bucket (f : QuotientHashTable) (address bucket_number : Nat) : Nat :=
  f.qht.extract_u64 ((address * f.n_buckets + bucket_number) * f.fingerprint_size)
    f.fingerprint_size

/-- Translates `insert_fingerprint_in_bucket`: write `fingerprint` at
`(address, bucket_number)`. -/
def insert_fingerprint_in_bucket (f : QuotientHashTable) (address bucket_number fingerprint : Nat) :
    QuotientHashTable :=
  let offset := (address * f.n_buckets + bucket_number) * f.fingerprint_size
  { f with qht := f.qht.insert_u64 fingerprint offset f.fingerprint_size }

/-- Translates `in_cell`: scan the buckets of cell `address` for
`fingerprint`, with early exit. -/
def in_cell (f : QuotientHashTable) (address fingerprint : Nat) : Bool :=
  (List.range f.n_buckets).any fun idx =>
    f.get_fingerprint_from_bucket address idx == fingerprint

/-- Translates `get_random_bucket`: draw `rng.gen_range(0, n_buckets)`. -/
def get_random_bucket (f : QuotientHashTable) (rng : Rng) : Nat × Rng :=
  rng.genRange f.n_buckets

/-- Translates `insert_empty`: write `fingerprint` into the first bucket of
cell `address` whose content is `0` and report success; on a full cell
report failure and leave the state unchanged. -/
def insert_empty (f : QuotientHashTable) (address fingerprint : Nat) :
    Bool × QuotientHashTable :=
  match (List.range f.n_buckets).find?
      (fun idx => f.get_fingerprint_from_bucket address idx == 0) with
  | some idx => (true, f.insert_fingerprint_in_bucket address idx fingerprint)
  | none => (false, f)

/-- Translates `get_fingerprint` as written in all three variants: loop
hashing the (copied, mutated) element value with seed 2 until the residue
`% pow_fingerprint_size` is non-zero, incrementing the `u64` value each
round. The unbounded `while` is given explicit fuel; `none` models
non-termination within the fuel. -/
def get_fingerprint (hash : List Nat → Nat) (powF : Nat) : Nat → Nat → Option Nat
  | 0, _ => none
  | fuel + 1, v =>
    let fingerprint := elemHash hash v 2 % powF
    if fingerprint = 0 then get_fingerprint hash powF fuel ((v + 1) % U64)
    else some fingerprint

/-- Translates `lookup`, which is textually identical in the three
variants: fingerprint, address, `in_cell` scan. `lookup` takes the filter
by shared reference (`&self`) and returns only a boolean. -/
def lookup (hash : List Nat → Nat) (f : QuotientHashTable) (e fuel : Nat) : Option Bool :=
  (get_fingerprint hash f.pow_fingerprint_size fuel e).map fun fingerprint =>
    f.in_cell (elemHash hash e 1 % f.n_cells) fingerprint

/-- Translates `QuotientHashTable::new` (QHTc): panics (`none`) on
`fingerprint_size > 8`, `fingerprint_size == 0`, `n_buckets == 0` or
`n_cells == 0`; otherwise allocates a zeroed store of
`n_cells * n_buckets * fingerprint_size` bits. The RNG the source draws
from entropy here lives outside the model state. -/
def qht_new (memory_size n_buckets fingerprint_size : Nat) : Option QuotientHashTable :=
  if fingerprint_size > 8 then none
  else if fingerprint_size = 0 then none
  else if n_buckets = 0 then none
  else
    let pow_fingerprint_size := 2 ^ fingerprint_size
    let n_cells := memory_size / (n_buckets * fingerprint_size)
    if n_cells = 0 then none
    else some
      { n_cells
        n_buckets
        fingerprint_size
        pow_fingerprint_size
        qht := BitStore.with_capacity (n_cells * n_buckets * fingerprint_size) }

/-- Translates `DQuotientHashTable::new` (dQHTc): same checks and layout as
QHTc. -/
def dqht_new (memory_size n_buckets fingerprint_size : Nat) : Option QuotientHashTable :=
  if fingerprint_size > 8 then none
  else if fingerprint_size = 0 then none
  else if n_buckets = 0 then none
  else
    let pow_fingerprint_size := 2 ^ fingerprint_size
    let n_cells := memory_size / (n_buckets * fingerprint_size)
    if n_cells = 0 then none
    else some
      { n_cells
        n_buckets
        fingerprint_size
        pow_fingerprint_size
        qht := BitStore.with_capacity (n_cells * n_buckets * fingerprint_size) }

/-- Translates `DQQuotientHashTable::new` (dqQHTc): same checks; the source
allocates the store *before* the `n_cells == 0` check (spec §9 note), which
does not change the observable result. -/
def dqqht_new (memory_size n_buckets fingerprint_size : Nat) : Option QuotientHashTable :=
  if fingerprint_size > 8 then none
  else if fingerprint_size = 0 then none
  else if n_buckets = 0 then none
  else
    let pow_fingerprint_size := 2 ^ fingerprint_size
    let n_cells := memory_size / (n_buckets * fingerprint_size)
    let qht := BitStore.with_capacity (n_cells * n_buckets * fingerprint_size)
    if n_cells = 0 then none
    else some { n_cells, n_buckets, fingerprint_size, pow_fingerprint_size, qht }

/-- Translates `QuotientHashTable::insert` (QHTc): early `true` return when
the fingerprint is already in the cell; otherwise first-empty-bucket write,
falling back to a random bucket on a full cell, and return `false`. -/
def qht_insert (hash : List Nat → Nat) (f : QuotientHashTable) (rng : Rng) (e fuel : Nat) :
    Option (Bool × QuotientHashTable × Rng) :=
  match get_fingerprint hash f.pow_fingerprint_size fuel e with
  | none => none
  | some fingerprint =>
    let address := elemHash hash e 1 % f.n_cells
    if f.in_cell address fingerprint then some (true, f, rng)
    else
      match f.insert_empty address fingerprint with
      | (true, f') => some (false, f', rng)
      | (false, _) =>
        let (bucket, rng') := f.get_random_bucket rng
        some (false, f.insert_fingerprint_in_bucket address bucket fingerprint, rng')

/-- Translates `DQuotientHashTable::insert` (dQHTc): record
`detected = in_cell`, then always write (first empty bucket, else random
bucket), and return `detected`. -/
def dqht_insert (hash : List Nat → Nat) (f : QuotientHashTable) (rng : Rng) (e fuel : Nat) :
    Option (Bool × QuotientHashTable × Rng) :=
  match get_fingerprint hash f.pow_fingerprint_size fuel e with
  | none => none
  | some fingerprint =>
    let address := elemHash hash e 1 % f.n_cells
    let detected := f.in_cell address fingerprint
    match f.insert_empty address fingerprint with
    | (true, f') => some (detected, f', rng)
    | (false, _) =>
      let (bucket, rng') := f.get_random_bucket rng
      some (detected, f.insert_fingerprint_in_bucket address bucket fingerprint, rng')

/-- One iteration of the dqQHTc shift loop: read the current content of
bucket `prev + 1` of cell `address` and write it into bucket `prev`. -/
def shift_step (address : Nat) (g : QuotientHashTable) (prev : Nat) : QuotientHashTable :=
  g.insert_fingerprint_in_bucket address prev
    (g.get_fingerprint_from_bucket address (prev + 1))

/-- Translates `insert_fingerprint_in_last_bucket` (dqQHTc): shift the cell
left one bucket — for `prev` in `0 .. n_buckets - 1`, copy the current
content of bucket `prev + 1` into bucket `prev` — then write `fingerprint`
into the last bucket. -/
def insert_fingerprint_in_last_bucket (f : QuotientHashTable) (address fingerprint : Nat) :
    QuotientHashTable :=
  let g := (List.range (f.n_buckets - 1)).foldl (shift_step address) f
  g.insert_fingerprint_in_bucket address (f.n_buckets - 1) fingerprint

/-- Translates `DQQuotientHashTable::insert` (dqQHTc): record
`detected = in_cell`, shift the cell and write into the last bucket, and
return `detected`. This variant uses no RNG. -/
def dqqht_insert (hash : List Nat → Nat) (f : QuotientHashTable) (e fuel : Nat) :
    Option (Bool × QuotientHashTable) :=
  match get_fingerprint hash f.pow_fingerprint_size fuel e with
  | none => none
  | some fingerprint =>
    let address := elemHash hash e 1 % f.n_cells
    let detected := f.in_cell address fingerprint
    some (detected, f.insert_fingerprint_in_last_bucket address fingerprint)

/-- Follows the spec's words (§4.2): the reference fingerprint derivation,
hashing the triple (item, seed 2, counter) with the counter passed as an
explicit third hash input, as `basicqht::get_fingerprint` (via
`basicqht::get_hash(e, 2, counter)`) does; fuel-bounded like
`get_fingerprint`. -/
def fingerprint_reference (hash : List Nat → Nat) (powF v : Nat) : Nat → Nat → Option Nat
  | 0, _ => none
  | fuel + 1, c =>
    let fp := hash [v, 2, c] % powF
    if fp = 0 then fingerprint_reference hash powF v fuel (c + 1) else some fp

/-- The amended reference derivation: the counter perturbs the hashed
value itself — round `c` hashes the pair `((value + c) mod 2^64, seed 2)`
— instead of being a third hash input. -/
def fingerprint_by_counter (hash : List Nat → Nat) (powF v : Nat) : Nat → Nat → Option Nat
  | 0, _ => none
  | fuel + 1, c =>
    let fp := elemHash hash ((v + c) % U64) 2 % powF
    if fp = 0 then fingerprint_by_counter hash powF v fuel (c + 1) else some fp

end QuotientHashTable

/-- Concrete hash instance (a decimal positional fold) used to evaluate the
abstract hash parameter in witnesses and counterexamples. -/
def sampleHash : List Nat → Nat :=
  fun l => l.foldl (fun a x => 10 * a + x) 0

/-- Concrete RNG instance (constant stream) used in witnesses. -/
def sampleRng : Rng := ⟨fun _ => 0, 0⟩

/-- The filter produced by `new(4, 1, 4)`: one cell of one 4-bit bucket. -/
def sampleQht : QuotientHashTable := ⟨1, 1, 4, 16, BitStore.with_capacity 4⟩

/-- `sampleQht` after writing fingerprint 2 into bucket 0 of cell 0. -/
def sampleQht1 : QuotientHashTable := sampleQht.insert_fingerprint_in_bucket 0 0 2

/-- The filter produced by `new(16, 4, 4)`: one cell of four 4-bit buckets. -/
def sampleDqqht : QuotientHashTable := ⟨1, 4, 4, 16, BitStore.with_capacity 16⟩

/-- States reached by five successive dqQHTc inserts of the elements
0, 1, 2, 4, 5 (fingerprints 2, 12, 6, 10, 4 under `sampleHash`) into
`sampleDqqht`. -/
def sampleDq1 : QuotientHashTable :=
  ((QuotientHashTable.dqqht_insert sampleHash sampleDqqht 0 1).getD (false, sampleDqqht)).2

/-- State after the second dqQHTc insert (element 1). -/
def sampleDq2 : QuotientHashTable :=
  ((QuotientHashTable.dqqht_insert sampleHash sampleDq1 1 1).getD (false, sampleDq1)).2

/-- State after the third dqQHTc insert (element 2). -/
def sampleDq3 : QuotientHashTable :=
  ((QuotientHashTable.dqqht_insert sampleHash sampleDq2 2 1).getD (false, sampleDq2)).2

/-- State after the fourth dqQHTc insert (element 4). -/
def sampleDq4 : QuotientHashTable :=
  ((QuotientHashTable.dqqht_insert sampleHash sampleDq3 4 1).getD (false, sampleDq3)).2

/-- State after the fifth dqQHTc insert (element 5). -/
def sampleDq5 : QuotientHashTable :=
  ((QuotientHashTable.dqqht_insert sampleHash sampleDq4 5 1).getD (false, sampleDq4)).2

/-! ## Theorems -/

theorem extractBits_lt (bits : Nat → Bool) (off w : Nat) :
    extractBits bits off w < 2 ^ w := by
  induction w generalizing off with
  | zero => simp [extractBits]
  | succ k ih =>
    have h := ih (off + 1)
    simp only [extractBits, Nat.pow_succ]
    cases bits off <;> simp <;> omega

theorem extractBits_congr {b1 b2 : Nat → Bool} (off w : Nat)
    (h : ∀ i, i < w → b1 (off + i) = b2 (off + i)) :
    extractBits b1 off w = extractBits b2 off w := by
  induction w generalizing off with
  | zero => rfl
  | succ k ih =>
    simp only [extractBits]
    have h0 : b1 off = b2 off := by
      have := h 0 (by omega); simpa using this
    rw [h0, ih (off + 1) (fun i hi => by
      have := h (i + 1) (by omega)
      simpa [Nat.add_assoc, Nat.add_comm 1 i] using this)]

theorem extractBits_zero (off w : Nat) :
    extractBits (fun _ => false) off w = 0 := by
  induction w generalizing off with
  | zero => rfl
  | succ k ih => simp [extractBits, ih]

theorem extractBits_insertBits_same (v off w : Nat) (b : Nat → Bool) :
    extractBits (insertBits v off w b) off w = v % 2 ^ w := by
  induction w generalizing off v with
  | zero => simp [extractBits, Nat.mod_one]
  | succ k ih =>
    simp only [extractBits]
    have hhead : insertBits v off (k + 1) b off = v.testBit 0 := by
      simp [insertBits]
    have htail : extractBits (insertBits v off (k + 1) b) (off + 1) k
        = extractBits (insertBits (v / 2) (off + 1) k b) (off + 1) k := by
      apply extractBits_congr
      intro i hi
      simp only [insertBits]
      have hc1 : off ≤ off + 1 + i ∧ off + 1 + i < off + (k + 1) := by omega
      have hc2 : off + 1 ≤ off + 1 + i ∧ off + 1 + i < off + 1 + k := by omega
      rw [if_pos hc1, if_pos hc2]
      have h1 : off + 1 + i - off = i + 1 := by omega
      have h2 : off + 1 + i - (off + 1) = i := by omega
      rw [h1, h2, Nat.testBit_succ]
    rw [hhead, htail, ih]
    have hbit : (cond (v.testBit 0) 1 0) = v % 2 := by
      rcases Nat.mod_two_eq_zero_or_one v with h | h <;>
        simp [Nat.testBit_zero, h]
    have hpow : 0 < 2 ^ k := Nat.pow_pos (by norm_num)
    have hm1 : 2 * (v / 2) % (2 * 2 ^ k) = 2 * (v / 2 % 2 ^ k) :=
      Nat.mul_mod_mul_left 2 (v / 2) (2 ^ k)
    have hr : v % 2 < 2 := Nat.mod_lt _ (by norm_num)
    have hq : v / 2 % 2 ^ k < 2 ^ k := Nat.mod_lt _ hpow
    have hmod : v % 2 ^ (k + 1) = 2 * (v / 2 % 2 ^ k) + v % 2 := by
      rw [Nat.pow_succ, Nat.mul_comm (2 ^ k) 2]
      conv_lhs => rw [← Nat.div_add_mod v 2]
      rw [Nat.add_mod, hm1, Nat.mod_eq_of_lt (by omega : v % 2 < 2 * 2 ^ k)]
      exact Nat.mod_eq_of_lt (by omega)
    rw [hbit, hmod]
    omega

theorem extractBits_insertBits_disjoint (v off w off' w' : Nat) (b : Nat → Bool)
    (h : off' + w' ≤ off ∨ off + w ≤ off') :
    extractBits (insertBits v off w b) off' w' = extractBits b off' w' := by
  apply extractBits_congr
  intro i hi
  simp only [insertBits]
  rw [if_neg (by omega)]

namespace QuotientHashTable

/-! ### Helper lemmas: slot layout and single-bucket reads/writes -/

theorem slot_lt {a a' b b' B : Nat} (hb : b < B) (h : a < a') :
    a * B + b < a' * B + b' := by
  have h2 : (a + 1) * B ≤ a' * B := Nat.mul_le_mul_right B (by omega)
  have h1 : (a + 1) * B = a * B + B := by ring
  omega

theorem slot_ne {a a' b b' B : Nat} (hb : b < B) (hb' : b' < B)
    (hne : a ≠ a' ∨ b ≠ b') : a * B + b ≠ a' * B + b' := by
  rcases Nat.lt_trichotomy a a' with h | h | h
  · exact Nat.ne_of_lt (slot_lt hb h)
  · subst h
    rcases hne with h | h
    · exact absurd rfl h
    · omega
  · exact (Nat.ne_of_lt (slot_lt hb' h)).symm

theorem get_from_insert_same (f : QuotientHashTable) (a b fp : Nat) :
    (f.insert_fingerprint_in_bucket a b fp).get_fingerprint_from_bucket a b
      = fp % 2 ^ f.fingerprint_size := by
  simp [insert_fingerprint_in_bucket, get_fingerprint_from_bucket,
    BitStore.extract_u64, BitStore.insert_u64, extractBits_insertBits_same]

theorem get_from_insert_ne (f : QuotientHashTable) {a b : Nat} (fp : Nat) {a' b' : Nat}
    (hb : b < f.n_buckets) (hb' : b' < f.n_buckets) (hne : a ≠ a' ∨ b ≠ b') :
    (f.insert_fingerprint_in_bucket a b fp).get_fingerprint_from_bucket a' b'
      = f.get_fingerprint_from_bucket a' b' := by
  have hs : a * f.n_buckets + b ≠ a' * f.n_buckets + b' := slot_ne hb hb' hne
  simp only [insert_fingerprint_in_bucket, get_fingerprint_from_bucket,
    BitStore.extract_u64, BitStore.insert_u64]
  apply extractBits_insertBits_disjoint
  rcases Nat.lt_or_ge (a * f.n_buckets + b) (a' * f.n_buckets + b') with h | h
  · right
    have : (a * f.n_buckets + b + 1) * f.fingerprint_size
        ≤ (a' * f.n_buckets + b') * f.fingerprint_size :=
      Nat.mul_le_mul_right _ (by omega)
    have hd : (a * f.n_buckets + b + 1) * f.fingerprint_size
        = (a * f.n_buckets + b) * f.fingerprint_size + f.fingerprint_size := by ring
    omega
  · left
    have hlt : a' * f.n_buckets + b' < a * f.n_buckets + b := by omega
    have : (a' * f.n_buckets + b' + 1) * f.fingerprint_size
        ≤ (a * f.n_buckets + b) * f.fingerprint_size :=
      Nat.mul_le_mul_right _ (by omega)
    have hd : (a' * f.n_buckets + b' + 1) * f.fingerprint_size
        = (a' * f.n_buckets + b') * f.fingerprint_size + f.fingerprint_size := by ring
    omega

theorem get_fingerprint_from_bucket_lt (f : QuotientHashTable) (a b : Nat) :
    f.get_fingerprint_from_bucket a b < 2 ^ f.fingerprint_size :=
  extractBits_lt _ _ _

theorem insert_bucket_n_cells (f : QuotientHashTable) (a b fp : Nat) :
    (f.insert_fingerprint_in_bucket a b fp).n_cells = f.n_cells := rfl

theorem insert_bucket_n_buckets (f : QuotientHashTable) (a b fp : Nat) :
    (f.insert_fingerprint_in_bucket a b fp).n_buckets = f.n_buckets := rfl

theorem insert_bucket_fingerprint_size (f : QuotientHashTable) (a b fp : Nat) :
    (f.insert_fingerprint_in_bucket a b fp).fingerprint_size = f.fingerprint_size := rfl

theorem insert_bucket_pow (f : QuotientHashTable) (a b fp : Nat) :
    (f.insert_fingerprint_in_bucket a b fp).pow_fingerprint_size
      = f.pow_fingerprint_size := rfl

theorem insert_bucket_len (f : QuotientHashTable) (a b fp : Nat) :
    (f.insert_fingerprint_in_bucket a b fp).qht.len = f.qht.len := rfl

/-! ### Helper lemmas: cell scans -/

theorem in_cell_iff (f : QuotientHashTable) (a fp : Nat) :
    f.in_cell a fp = true
      ↔ ∃ b, b < f.n_buckets ∧ f.get_fingerprint_from_bucket a b = fp := by
  simp [in_cell, List.any_eq_true, List.mem_range]

theorem in_cell_eq_false (f : QuotientHashTable) (a fp : Nat)
    (h : ∀ b, b < f.n_buckets → f.get_fingerprint_from_bucket a b ≠ fp) :
    f.in_cell a fp = false := by
  rw [← Bool.not_eq_true, in_cell_iff]
  push_neg
  intro b hb
  exact h b hb

theorem find?_range_eq_some (p : Nat → Bool) (n j : Nat) (hj : j < n)
    (hpj : p j = true) (hmin : ∀ i, i < j → p i = false) :
    (List.range n).find? p = some j := by
  induction j generalizing n p with
  | zero =>
    cases n with
    | zero => omega
    | succ m =>
      rw [List.range_succ_eq_map]
      exact List.find?_cons_of_pos _ hpj
  | succ k ih =>
    cases n with
    | zero => omega
    | succ m =>
      rw [List.range_succ_eq_map]
      rw [List.find?_cons_of_neg _ (by simp [hmin 0 (by omega)])]
      rw [List.find?_map]
      have hrec := ih (fun i => p (i + 1)) m (by omega) hpj
        (fun i hi => hmin (i + 1) (by omega))
      have hcomp : (p ∘ Nat.succ) = fun i => p (i + 1) := rfl
      rw [hcomp, hrec]
      rfl

theorem find?_range_eq_none (p : Nat → Bool) (n : Nat)
    (h : ∀ i, i < n → p i = false) : (List.range n).find? p = none := by
  rw [List.find?_eq_none]
  intro x hx
  simp [h x (List.mem_range.mp hx)]

/-! ### Helper lemmas: fingerprint derivation -/

theorem get_fingerprint_spec {hash : List Nat → Nat} {powF fuel v fp : Nat}
    (h : get_fingerprint hash powF fuel v = some fp) :
    fp ≠ 0 ∧ (0 < powF → fp < powF) := by
  induction fuel generalizing v with
  | zero => simp [get_fingerprint] at h
  | succ k ih =>
    simp only [get_fingerprint] at h
    by_cases hz : elemHash hash v 2 % powF = 0
    · rw [if_pos hz] at h
      exact ih h
    · rw [if_neg hz] at h
      cases h
      exact ⟨hz, fun hp => Nat.mod_lt _ hp⟩

/-! ### Helper lemmas: construction -/

theorem qht_new_spec {M B F : Nat} {f : QuotientHashTable}
    (h : qht_new M B F = some f) :
    f.n_cells = M / (B * F) ∧ f.n_buckets = B ∧ f.fingerprint_size = F ∧
    f.pow_fingerprint_size = 2 ^ F ∧ 0 < B ∧ 0 < F ∧ F ≤ 8 ∧ 0 < f.n_cells ∧
    f.qht.len = (M / (B * F)) * B * F ∧ f.qht.bits = fun _ => false := by
  by_cases h1 : F > 8
  · simp [qht_new, h1] at h
  by_cases h2 : F = 0
  · simp [qht_new, h1, h2] at h
  by_cases h3 : B = 0
  · simp [qht_new, h1, h2, h3] at h
  by_cases h4 : M / (B * F) = 0
  · simp [qht_new, h1, h2, h3, h4] at h
  have h' : some
      { n_cells := M / (B * F), n_buckets := B, fingerprint_size := F,
        pow_fingerprint_size := 2 ^ F,
        qht := BitStore.with_capacity (M / (B * F) * B * F)
        : QuotientHashTable } = some f := by
    rw [← h]
    simp [qht_new, h1, h2, h3, h4]
  injection h' with h'
  subst h'
  refine ⟨rfl, rfl, rfl, rfl, by omega, by omega, by omega,
    Nat.pos_of_ne_zero h4, rfl, rfl⟩

theorem dqht_new_eq (M B F : Nat) : dqht_new M B F = qht_new M B F := rfl

theorem dqqht_new_eq (M B F : Nat) : dqqht_new M B F = qht_new M B F := rfl

/-! ### Helper lemmas: the dqQHTc shift loop -/

theorem foldl_shift_params (a : Nat) (l : List Nat) (f : QuotientHashTable) :
    (l.foldl (shift_step a) f).n_cells = f.n_cells ∧
    (l.foldl (shift_step a) f).n_buckets = f.n_buckets ∧
    (l.foldl (shift_step a) f).fingerprint_size = f.fingerprint_size ∧
    (l.foldl (shift_step a) f).pow_fingerprint_size = f.pow_fingerprint_size ∧
    (l.foldl (shift_step a) f).qht.len = f.qht.len := by
  induction l generalizing f with
  | nil => exact ⟨rfl, rfl, rfl, rfl, rfl⟩
  | cons x xs ih => exact ih (shift_step a f x)

theorem foldl_shift_frame (a : Nat) (l : List Nat) (f : QuotientHashTable)
    (hl : ∀ x ∈ l, x < f.n_buckets) {a' b' : Nat} (ha : a' ≠ a)
    (hb' : b' < f.n_buckets) :
    (l.foldl (shift_step a) f).get_fingerprint_from_bucket a' b'
      = f.get_fingerprint_from_bucket a' b' := by
  induction l generalizing f with
  | nil => rfl
  | cons x xs ih =>
    have hx : x < f.n_buckets := hl x (by simp)
    have hstep : (shift_step a f x).get_fingerprint_from_bucket a' b'
        = f.get_fingerprint_from_bucket a' b' :=
      get_from_insert_ne f _ hx hb' (Or.inl (fun h => ha h.symm))
    have hrec := ih (shift_step a f x) (fun y hy => hl y (by simp [hy])) hb'
    rw [List.foldl_cons, hrec, hstep]

theorem shift_fold_spec (f : QuotientHashTable) (a k : Nat) (hk : k < f.n_buckets) :
    (∀ b, b < k →
      ((List.range k).foldl (shift_step a) f).get_fingerprint_from_bucket a b
        = f.get_fingerprint_from_bucket a (b + 1)) ∧
    (∀ b, k ≤ b → b < f.n_buckets →
      ((List.range k).foldl (shift_step a) f).get_fingerprint_from_bucket a b
        = f.get_fingerprint_from_bucket a b) := by
  induction k with
  | zero => exact ⟨fun b hb => absurd hb (by omega), fun b _ _ => rfl⟩
  | succ k ih =>
    obtain ⟨ih1, ih2⟩ := ih (by omega)
    have hfold : (List.range (k + 1)).foldl (shift_step a) f
        = shift_step a ((List.range k).foldl (shift_step a) f) k := by
      rw [List.range_succ, List.foldl_append]
      rfl
    obtain ⟨-, hgB, hgF, -, -⟩ := foldl_shift_params a (List.range k) f
    constructor
    · intro b hb
      rw [hfold]
      rcases Nat.lt_or_ge b k with hbk | hbk
      · rw [shift_step, get_from_insert_ne _ _ (by omega) (by omega) (Or.inr (by omega))]
        exact ih1 b hbk
      · have hbk' : b = k := by omega
        subst hbk'
        rw [shift_step, get_from_insert_same, ih2 (b + 1) (by omega) (by omega), hgF]
        exact Nat.mod_eq_of_lt (get_fingerprint_from_bucket_lt f a (b + 1))
    · intro b hb hbB
      rw [hfold, shift_step,
        get_from_insert_ne _ _ (by omega) (by omega) (Or.inr (by omega))]
      exact ih2 b (by omega) hbB

theorem insert_last_params (f : QuotientHashTable) (a fp : Nat) :
    (f.insert_fingerprint_in_last_bucket a fp).n_cells = f.n_cells ∧
    (f.insert_fingerprint_in_last_bucket a fp).n_buckets = f.n_buckets ∧
    (f.insert_fingerprint_in_last_bucket a fp).fingerprint_size = f.fingerprint_size ∧
    (f.insert_fingerprint_in_last_bucket a fp).pow_fingerprint_size
      = f.pow_fingerprint_size ∧
    (f.insert_fingerprint_in_last_bucket a fp).qht.len = f.qht.len := by
  unfold insert_fingerprint_in_last_bucket
  obtain ⟨h1, h2, h3, h4, h5⟩ :=
    foldl_shift_params a (List.range (f.n_buckets - 1)) f
  exact ⟨h1, h2, h3, h4, h5⟩

theorem insert_last_spec (f : QuotientHashTable) (a fp : Nat) (hB : 0 < f.n_buckets) :
    ((f.insert_fingerprint_in_last_bucket a fp).get_fingerprint_from_bucket a
        (f.n_buckets - 1) = fp % 2 ^ f.fingerprint_size) ∧
    (∀ b, b + 1 < f.n_buckets →
      (f.insert_fingerprint_in_last_bucket a fp).get_fingerprint_from_bucket a b
        = f.get_fingerprint_from_bucket a (b + 1)) ∧
    (∀ a' b', a' ≠ a → b' < f.n_buckets →
      (f.insert_fingerprint_in_last_bucket a fp).get_fingerprint_from_bucket a' b'
        = f.get_fingerprint_from_bucket a' b') := by
  obtain ⟨h1, h2⟩ := shift_fold_spec f a (f.n_buckets - 1) (by omega)
  obtain ⟨-, hgB, hgF, -, -⟩ := foldl_shift_params a (List.range (f.n_buckets - 1)) f
  unfold insert_fingerprint_in_last_bucket
  refine ⟨?_, ?_, ?_⟩
  · rw [get_from_insert_same, hgF]
  · intro b hb
    rw [get_from_insert_ne _ _ (by omega) (by omega) (Or.inr (by omega))]
    exact h1 b (by omega)
  · intro a' b' ha hb'
    rw [get_from_insert_ne _ _ (by omega) (by omega) (Or.inl (fun h => ha h.symm))]
    exact foldl_shift_frame a _ f (fun x hx => by
      have := List.mem_range.mp hx
      omega) ha hb'

/-! ### Helper lemmas: insert case analysis -/

theorem fresh_bucket_zero {f : QuotientHashTable} (hbits : f.qht.bits = fun _ => false)
    (a b : Nat) : f.get_fingerprint_from_bucket a b = 0 := by
  simp [get_fingerprint_from_bucket, BitStore.extract_u64, hbits, extractBits_zero]

theorem insert_empty_snd_params (f : QuotientHashTable) (a fp : Nat) :
    (f.insert_empty a fp).2.n_cells = f.n_cells ∧
    (f.insert_empty a fp).2.n_buckets = f.n_buckets ∧
    (f.insert_empty a fp).2.fingerprint_size = f.fingerprint_size ∧
    (f.insert_empty a fp).2.pow_fingerprint_size = f.pow_fingerprint_size ∧
    (f.insert_empty a fp).2.qht.len = f.qht.len := by
  unfold insert_empty
  cases h : (List.range f.n_buckets).find?
      (fun idx => f.get_fingerprint_from_bucket a idx == 0) <;>
    exact ⟨rfl, rfl, rfl, rfl, rfl⟩

theorem qht_insert_eq_of_in_cell {hash : List Nat → Nat} {f : QuotientHashTable}
    {rng : Rng} {e fuel fp : Nat}
    (hfp : get_fingerprint hash f.pow_fingerprint_size fuel e = some fp)
    (hin : f.in_cell (elemHash hash e 1 % f.n_cells) fp = true) :
    qht_insert hash f rng e fuel = some (true, f, rng) := by
  unfold qht_insert
  rw [hfp]
  simp [hin]

theorem qht_insert_eq_of_empty {hash : List Nat → Nat} {f : QuotientHashTable}
    {rng : Rng} {e fuel fp j : Nat}
    (hfp : get_fingerprint hash f.pow_fingerprint_size fuel e = some fp)
    (hin : f.in_cell (elemHash hash e 1 % f.n_cells) fp = false)
    (hfind : (List.range f.n_buckets).find?
      (fun idx =>
        f.get_fingerprint_from_bucket (elemHash hash e 1 % f.n_cells) idx == 0)
      = some j) :
    qht_insert hash f rng e fuel = some
      (false, f.insert_fingerprint_in_bucket (elemHash hash e 1 % f.n_cells) j fp, rng) := by
  unfold qht_insert
  rw [hfp]
  simp [hin, insert_empty, hfind]

theorem qht_insert_eq_of_full {hash : List Nat → Nat} {f : QuotientHashTable}
    {rng : Rng} {e fuel fp : Nat}
    (hfp : get_fingerprint hash f.pow_fingerprint_size fuel e = some fp)
    (hin : f.in_cell (elemHash hash e 1 % f.n_cells) fp = false)
    (hfind : (List.range f.n_buckets).find?
      (fun idx =>
        f.get_fingerprint_from_bucket (elemHash hash e 1 % f.n_cells) idx == 0)
      = none) :
    qht_insert hash f rng e fuel = some
      (false,
       f.insert_fingerprint_in_bucket (elemHash hash e 1 % f.n_cells)
         (rng.seq rng.idx % f.n_buckets) fp,
       rng.next) := by
  unfold qht_insert
  rw [hfp]
  simp [hin, insert_empty, hfind, get_random_bucket, Rng.genRange]

theorem dqht_insert_eq_of_empty {hash : List Nat → Nat} {f : QuotientHashTable}
    {rng : Rng} {e fuel fp j : Nat}
    (hfp : get_fingerprint hash f.pow_fingerprint_size fuel e = some fp)
    (hfind : (List.range f.n_buckets).find?
      (fun idx =>
        f.get_fingerprint_from_bucket (elemHash hash e 1 % f.n_cells) idx == 0)
      = some j) :
    dqht_insert hash f rng e fuel = some
      (f.in_cell (elemHash hash e 1 % f.n_cells) fp,
       f.insert_fingerprint_in_bucket (elemHash hash e 1 % f.n_cells) j fp, rng) := by
  unfold dqht_insert
  rw [hfp]
  simp [insert_empty, hfind]

theorem dqht_insert_eq_of_full {hash : List Nat → Nat} {f : QuotientHashTable}
    {rng : Rng} {e fuel fp : Nat}
    (hfp : get_fingerprint hash f.pow_fingerprint_size fuel e = some fp)
    (hfind : (List.range f.n_buckets).find?
      (fun idx =>
        f.get_fingerprint_from_bucket (elemHash hash e 1 % f.n_cells) idx == 0)
      = none) :
    dqht_insert hash f rng e fuel = some
      (f.in_cell (elemHash hash e 1 % f.n_cells) fp,
       f.insert_fingerprint_in_bucket (elemHash hash e 1 % f.n_cells)
         (rng.seq rng.idx % f.n_buckets) fp,
       rng.next) := by
  unfold dqht_insert
  rw [hfp]
  simp [insert_empty, hfind, get_random_bucket, Rng.genRange]

theorem dqqht_insert_eq {hash : List Nat → Nat} {f : QuotientHashTable}
    {e fuel fp : Nat}
    (hfp : get_fingerprint hash f.pow_fingerprint_size fuel e = some fp) :
    dqqht_insert hash f e fuel = some
      (f.in_cell (elemHash hash e 1 % f.n_cells) fp,
       f.insert_fingerprint_in_last_bucket (elemHash hash e 1 % f.n_cells) fp) := by
  unfold dqqht_insert
  rw [hfp]

theorem qht_insert_cases {hash : List Nat → Nat} {f : QuotientHashTable}
    {rng : Rng} {e fuel : Nat} {r : Bool × QuotientHashTable × Rng}
    (h : qht_insert hash f rng e fuel = some r) :
    ∃ fp, get_fingerprint hash f.pow_fingerprint_size fuel e = some fp ∧
      ((f.in_cell (elemHash hash e 1 % f.n_cells) fp = true ∧ r = (true, f, rng)) ∨
       (f.in_cell (elemHash hash e 1 % f.n_cells) fp = false ∧
        ∃ j, (List.range f.n_buckets).find?
            (fun idx =>
              f.get_fingerprint_from_bucket (elemHash hash e 1 % f.n_cells) idx == 0)
            = some j ∧
          r = (false,
            f.insert_fingerprint_in_bucket (elemHash hash e 1 % f.n_cells) j fp, rng)) ∨
       (f.in_cell (elemHash hash e 1 % f.n_cells) fp = false ∧
        (List.range f.n_buckets).find?
            (fun idx =>
              f.get_fingerprint_from_bucket (elemHash hash e 1 % f.n_cells) idx == 0)
            = none ∧
        r = (false,
          f.insert_fingerprint_in_bucket (elemHash hash e 1 % f.n_cells)
            (rng.seq rng.idx % f.n_buckets) fp,
          rng.next))) := by
  cases hfp : get_fingerprint hash f.pow_fingerprint_size fuel e with
  | none => rw [qht_insert, hfp] at h; cases h
  | some fp =>
    refine ⟨fp, rfl, ?_⟩
    by_cases hin : f.in_cell (elemHash hash e 1 % f.n_cells) fp
    · left
      rw [qht_insert_eq_of_in_cell hfp hin] at h
      exact ⟨hin, (Option.some_injective _ h).symm⟩
    · rw [Bool.not_eq_true] at hin
      cases hfind : (List.range f.n_buckets).find?
          (fun idx =>
            f.get_fingerprint_from_bucket (elemHash hash e 1 % f.n_cells) idx == 0) with
      | some j =>
        right; left
        rw [qht_insert_eq_of_empty hfp hin hfind] at h
        exact ⟨hin, j, rfl, (Option.some_injective _ h).symm⟩
      | none =>
        right; right
        rw [qht_insert_eq_of_full hfp hin hfind] at h
        exact ⟨hin, rfl, (Option.some_injective _ h).symm⟩

theorem dqht_insert_cases {hash : List Nat → Nat} {f : QuotientHashTable}
    {rng : Rng} {e fuel : Nat} {r : Bool × QuotientHashTable × Rng}
    (h : dqht_insert hash f rng e fuel = some r) :
    ∃ fp, get_fingerprint hash f.pow_fingerprint_size fuel e = some fp ∧
      ((∃ j, (List.range f.n_buckets).find?
            (fun idx =>
              f.get_fingerprint_from_bucket (elemHash hash e 1 % f.n_cells) idx == 0)
            = some j ∧
          r = (f.in_cell (elemHash hash e 1 % f.n_cells) fp,
            f.insert_fingerprint_in_bucket (elemHash hash e 1 % f.n_cells) j fp, rng)) ∨
       ((List.range f.n_buckets).find?
            (fun idx =>
              f.get_fingerprint_from_bucket (elemHash hash e 1 % f.n_cells) idx == 0)
            = none ∧
        r = (f.in_cell (elemHash hash e 1 % f.n_cells) fp,
          f.insert_fingerprint_in_bucket (elemHash hash e 1 % f.n_cells)
            (rng.seq rng.idx % f.n_buckets) fp,
          rng.next))) := by
  cases hfp : get_fingerprint hash f.pow_fingerprint_size fuel e with
  | none => rw [dqht_insert, hfp] at h; cases h
  | some fp =>
    refine ⟨fp, rfl, ?_⟩
    cases hfind : (List.range f.n_buckets).find?
        (fun idx =>
          f.get_fingerprint_from_bucket (elemHash hash e 1 % f.n_cells) idx == 0) with
    | some j =>
      left
      rw [dqht_insert_eq_of_empty hfp hfind] at h
      exact ⟨j, rfl, (Option.some_injective _ h).symm⟩
    | none =>
      right
      rw [dqht_insert_eq_of_full hfp hfind] at h
      exact ⟨rfl, (Option.some_injective _ h).symm⟩

theorem dqqht_insert_cases {hash : List Nat → Nat} {f : QuotientHashTable}
    {e fuel : Nat} {r : Bool × QuotientHashTable}
    (h : dqqht_insert hash f e fuel = some r) :
    ∃ fp, get_fingerprint hash f.pow_fingerprint_size fuel e = some fp ∧
      r = (f.in_cell (elemHash hash e 1 % f.n_cells) fp,
        f.insert_fingerprint_in_last_bucket (elemHash hash e 1 % f.n_cells) fp) := by
  cases hfp : get_fingerprint hash f.pow_fingerprint_size fuel e with
  | none => rw [dqqht_insert, hfp] at h; cases h
  | some fp =>
    rw [dqqht_insert_eq hfp] at h
    exact ⟨fp, rfl, (Option.some_injective _ h).symm⟩

theorem lookup_eq {hash : List Nat → Nat} {f : QuotientHashTable} {e fuel fp : Nat}
    (hfp : get_fingerprint hash f.pow_fingerprint_size fuel e = some fp) :
    lookup hash f e fuel
      = some (f.in_cell (elemHash hash e 1 % f.n_cells) fp) := by
  unfold lookup
  rw [hfp]
  rfl

/-- Shift form of the amended fingerprint derivation: starting the mutated
loop at the wrapped value `(v + c) % 2^64` agrees with the counter-style
loop started at counter `c`. -/
theorem get_fingerprint_eq_by_counter (hash : List Nat → Nat) (powF : Nat) :
    ∀ fuel v c, get_fingerprint hash powF fuel ((v + c) % U64)
      = fingerprint_by_counter hash powF v fuel c := by
  intro fuel
  induction fuel with
  | zero => intro v c; rfl
  | succ k ih =>
    intro v c
    simp only [get_fingerprint, fingerprint_by_counter]
    by_cases hz : elemHash hash ((v + c) % U64) 2 % powF = 0
    · rw [if_pos hz, if_pos hz]
      have hstep : ((v + c) % U64 + 1) % U64 = (v + (c + 1)) % U64 := by
        rw [Nat.mod_add_mod, Nat.add_assoc]
      rw [hstep]
      exact ih v (c + 1)
    · rw [if_neg hz, if_neg hz]

/-! ## Claim theorems -/

/-- C5: for every parameter triple `(memory_size, n_buckets = B,
fingerprint_size = F)`, construction of each of the three variants fails
fatally exactly when `F = 0`, `F > 8`, `B = 0`, or
`⌊memory_size / (B·F)⌋ = 0`, and succeeds for every other combination. -/
theorem construction_validates (M B F : Nat) :
    ((qht_new M B F = none) ↔ (F = 0 ∨ 8 < F ∨ B = 0 ∨ M / (B * F) = 0)) ∧
    ((dqht_new M B F = none) ↔ (F = 0 ∨ 8 < F ∨ B = 0 ∨ M / (B * F) = 0)) ∧
    ((dqqht_new M B F = none) ↔ (F = 0 ∨ 8 < F ∨ B = 0 ∨ M / (B * F) = 0)) := by
  have h : (qht_new M B F = none) ↔ (F = 0 ∨ 8 < F ∨ B = 0 ∨ M / (B * F) = 0) := by
    simp only [qht_new]
    split_ifs with h1 h2 h3 h4
    · exact ⟨fun _ => Or.inr (Or.inl h1), fun _ => rfl⟩
    · exact ⟨fun _ => Or.inl h2, fun _ => rfl⟩
    · exact ⟨fun _ => Or.inr (Or.inr (Or.inl h3)), fun _ => rfl⟩
    · exact ⟨fun _ => Or.inr (Or.inr (Or.inr h4)), fun _ => rfl⟩
    · constructor
      · intro hc
        exact absurd hc (by simp)
      · intro hc
        exfalso
        rcases hc with h | h | h | h
        exacts [h2 h, h1 h, h3 h, h4 h]
  exact ⟨h, by rw [dqht_new_eq]; exact h, by rw [dqqht_new_eq]; exact h⟩

/-- C6: for every item and fingerprint width `F` in `[1, 8]`, fingerprint
derivation, when it terminates, returns a value in `[1, 2^F)` — in
particular never `0`, the reserved empty-bucket value. -/
theorem fingerprint_nonzero_range (hash : List Nat → Nat) (F fuel v fp : Nat)
    (hF : 1 ≤ F ∧ F ≤ 8)
    (h : get_fingerprint hash (2 ^ F) fuel v = some fp) :
    1 ≤ fp ∧ fp < 2 ^ F := by
  obtain ⟨h1, h2⟩ := get_fingerprint_spec h
  exact ⟨Nat.one_le_iff_ne_zero.mpr h1, h2 (Nat.pow_pos (by norm_num))⟩

/-- Witness for C6 at the concrete hash, width 4, item 0. -/
theorem fingerprint_nonzero_range_witness :
    (1 ≤ 4 ∧ 4 ≤ 8) ∧ get_fingerprint sampleHash (2 ^ 4) 1 0 = some 2 ∧
      (1 ≤ 2 ∧ 2 < 2 ^ 4) :=
  ⟨by decide, by decide,
    fingerprint_nonzero_range sampleHash 4 1 0 2 (by decide) (by decide)⟩

/-- C7 counterexample: the fingerprint the variants compute (mutating the
copied item value between hash rounds) differs from the §4.2 reference
derivation (counter passed as a third hash input) — already at fuel 1,
item 0, width 4, under the concrete hash instance. -/
theorem fingerprint_deviates_from_reference :
    get_fingerprint sampleHash (2 ^ 4) 1 0
      ≠ fingerprint_reference sampleHash (2 ^ 4) 0 1 0 := by
  decide

/-- C7 amended: for every item value in the `u64` range, the variants'
fingerprint equals the derivation in which round `c` hashes the pair
`((value + c) mod 2^64, seed 2)` — the counter perturbs the hashed value
rather than being a third hash input. -/
theorem fingerprint_counter_commutes (hash : List Nat → Nat) (powF fuel v : Nat)
    (hv : v < U64) :
    get_fingerprint hash powF fuel v = fingerprint_by_counter hash powF v fuel 0 := by
  have h0 : v = (v + 0) % U64 := by
    rw [Nat.add_zero, Nat.mod_eq_of_lt hv]
  conv_lhs => rw [h0]
  exact get_fingerprint_eq_by_counter hash powF fuel v 0

/-- Witness for the amended C7 at the concrete hash, width 4, item 0. -/
theorem fingerprint_counter_commutes_witness :
    (0 : Nat) < U64 ∧
      get_fingerprint sampleHash 16 1 0 = fingerprint_by_counter sampleHash 16 0 1 0 :=
  ⟨by decide, fingerprint_counter_commutes sampleHash 16 1 0 (by decide)⟩

/-- C8: a filter built from `(M, B, F)` has exactly `⌊M/(B·F)⌋` cells and a
store of exactly `n_cells · B · F` bits, and no successful insert changes
the store length (lookup returns only a boolean and cannot change it). -/
theorem capacity_layout (hash : List Nat → Nat) (M B F : Nat) :
    (∀ f, qht_new M B F = some f →
      f.n_cells = M / (B * F) ∧ f.qht.len = f.n_cells * B * F) ∧
    (∀ f, dqht_new M B F = some f →
      f.n_cells = M / (B * F) ∧ f.qht.len = f.n_cells * B * F) ∧
    (∀ f, dqqht_new M B F = some f →
      f.n_cells = M / (B * F) ∧ f.qht.len = f.n_cells * B * F) ∧
    (∀ f rng e fuel b f' rng', qht_insert hash f rng e fuel = some (b, f', rng') →
      f'.qht.len = f.qht.len) ∧
    (∀ f rng e fuel b f' rng', dqht_insert hash f rng e fuel = some (b, f', rng') →
      f'.qht.len = f.qht.len) ∧
    (∀ f e fuel b f', dqqht_insert hash f e fuel = some (b, f') →
      f'.qht.len = f.qht.len) := by
  have hnew : ∀ f, qht_new M B F = some f →
      f.n_cells = M / (B * F) ∧ f.qht.len = f.n_cells * B * F := by
    intro f hf
    obtain ⟨h1, -, -, -, -, -, -, -, h9, -⟩ := qht_new_spec hf
    exact ⟨h1, by rw [h9, h1]⟩
  refine ⟨hnew, fun f hf => hnew f (by rwa [dqht_new_eq] at hf),
    fun f hf => hnew f (by rwa [dqqht_new_eq] at hf), ?_, ?_, ?_⟩
  · intro f rng e fuel b f' rng' h
    obtain ⟨fp, -, hc⟩ := qht_insert_cases h
    rcases hc with ⟨-, hr⟩ | ⟨-, j, -, hr⟩ | ⟨-, -, hr⟩ <;>
      simp only [Prod.mk.injEq] at hr <;>
      obtain ⟨-, hf', -⟩ := hr <;>
      rw [hf']
    all_goals exact insert_bucket_len _ _ _ _
  · intro f rng e fuel b f' rng' h
    obtain ⟨fp, -, hc⟩ := dqht_insert_cases h
    rcases hc with ⟨j, -, hr⟩ | ⟨-, hr⟩ <;>
      simp only [Prod.mk.injEq] at hr <;>
      obtain ⟨-, hf', -⟩ := hr <;>
      rw [hf']
    all_goals exact insert_bucket_len _ _ _ _
  · intro f e fuel b f' h
    obtain ⟨fp, -, hr⟩ := dqqht_insert_cases h
    simp only [Prod.mk.injEq] at hr
    obtain ⟨-, hf'⟩ := hr
    rw [hf']
    exact (insert_last_params f _ fp).2.2.2.2

/-- Witness for C8 at the construction `new(4, 1, 4)`. -/
theorem capacity_layout_witness :
    sampleQht.n_cells = 4 / (1 * 4) ∧ sampleQht.qht.len = sampleQht.n_cells * 1 * 4 :=
  (capacity_layout sampleHash 4 1 4).1 sampleQht rfl

/-- C10: in each variant, the boolean a successful insert returns equals
what lookup returns on the state immediately before the insert. -/
theorem insert_returns_prior_lookup (hash : List Nat → Nat) :
    (∀ f rng e fuel b f' rng', qht_insert hash f rng e fuel = some (b, f', rng') →
      lookup hash f e fuel = some b) ∧
    (∀ f rng e fuel b f' rng', dqht_insert hash f rng e fuel = some (b, f', rng') →
      lookup hash f e fuel = some b) ∧
    (∀ f e fuel b f', dqqht_insert hash f e fuel = some (b, f') →
      lookup hash f e fuel = some b) := by
  refine ⟨?_, ?_, ?_⟩
  · intro f rng e fuel b f' rng' h
    obtain ⟨fp, hfp, hc⟩ := qht_insert_cases h
    rw [lookup_eq hfp]
    rcases hc with ⟨hin, hr⟩ | ⟨hin, j, -, hr⟩ | ⟨hin, -, hr⟩ <;>
      simp only [Prod.mk.injEq] at hr <;>
      obtain ⟨hb, -⟩ := hr <;>
      rw [hin, hb]
  · intro f rng e fuel b f' rng' h
    obtain ⟨fp, hfp, hc⟩ := dqht_insert_cases h
    rw [lookup_eq hfp]
    rcases hc with ⟨j, -, hr⟩ | ⟨-, hr⟩ <;>
      simp only [Prod.mk.injEq] at hr <;>
      obtain ⟨hb, -⟩ := hr <;>
      rw [hb]
  · intro f e fuel b f' h
    obtain ⟨fp, hfp, hr⟩ := dqqht_insert_cases h
    rw [lookup_eq hfp]
    simp only [Prod.mk.injEq] at hr
    rw [hr.1]

/-- Witness for C10: the first insert into the fresh `new(4, 1, 4)` filter
returns `false`, matching the prior lookup. -/
theorem insert_returns_prior_lookup_witness :
    lookup sampleHash sampleQht 0 1 = some false :=
  (insert_returns_prior_lookup sampleHash).1 sampleQht sampleRng 0 1 false
    sampleQht1 sampleRng rfl



/-- C2: QHTc insert — if the cell already holds the fingerprint, return
`true` and leave everything unchanged; otherwise write into the
lowest-indexed zero bucket and return `false`; on a full cell overwrite
the RNG-chosen bucket, which lies in `[0, n_buckets)`, and return
`false`. -/
theorem qhtc_insert_correct (hash : List Nat → Nat) (f : QuotientHashTable)
    (rng : Rng) (e fuel fp a : Nat)
    (hfp : get_fingerprint hash f.pow_fingerprint_size fuel e = some fp)
    (ha : a = elemHash hash e 1 % f.n_cells) :
    ((∃ b, b < f.n_buckets ∧ f.get_fingerprint_from_bucket a b = fp) →
      qht_insert hash f rng e fuel = some (true, f, rng)) ∧
    ((¬ ∃ b, b < f.n_buckets ∧ f.get_fingerprint_from_bucket a b = fp) →
      (∀ j, j < f.n_buckets → f.get_fingerprint_from_bucket a j = 0 →
        (∀ i, i < j → f.get_fingerprint_from_bucket a i ≠ 0) →
        qht_insert hash f rng e fuel
          = some (false, f.insert_fingerprint_in_bucket a j fp, rng)) ∧
      ((∀ b, b < f.n_buckets → f.get_fingerprint_from_bucket a b ≠ 0) →
        qht_insert hash f rng e fuel
          = some (false,
            f.insert_fingerprint_in_bucket a (rng.seq rng.idx % f.n_buckets) fp,
            rng.next) ∧
        (0 < f.n_buckets → rng.seq rng.idx % f.n_buckets < f.n_buckets))) := by
  subst ha
  refine ⟨fun hex => qht_insert_eq_of_in_cell hfp ((in_cell_iff f _ fp).mpr hex),
    fun hnex => ⟨?_, ?_⟩⟩
  · intro j hj hz hmin
    have hin : f.in_cell (elemHash hash e 1 % f.n_cells) fp = false :=
      in_cell_eq_false f _ fp (fun b hb hbe => hnex ⟨b, hb, hbe⟩)
    have hfind := find?_range_eq_some
      (fun idx =>
        f.get_fingerprint_from_bucket (elemHash hash e 1 % f.n_cells) idx == 0)
      f.n_buckets j hj (by simp [hz]) (fun i hi => by simpa using hmin i hi)
    exact qht_insert_eq_of_empty hfp hin hfind
  · intro hall
    have hin : f.in_cell (elemHash hash e 1 % f.n_cells) fp = false :=
      in_cell_eq_false f _ fp (fun b hb hbe => hnex ⟨b, hb, hbe⟩)
    have hfind := find?_range_eq_none
      (fun idx =>
        f.get_fingerprint_from_bucket (elemHash hash e 1 % f.n_cells) idx == 0)
      f.n_buckets (fun i hi => by simpa using hall i hi)
    exact ⟨qht_insert_eq_of_full hfp hin hfind, fun hB => Nat.mod_lt _ hB⟩

/-- Witness for C2: inserting item 0 into the fresh `new(4, 1, 4)` filter
takes the first-empty-bucket branch. -/
theorem qhtc_insert_correct_witness :
    qht_insert sampleHash sampleQht sampleRng 0 1
      = some (false, sampleQht.insert_fingerprint_in_bucket 0 0 2, sampleRng) :=
  ((qhtc_insert_correct sampleHash sampleQht sampleRng 0 1 2 0 (by decide)
      (by decide)).2 (by decide)).1 0 (by decide) (by decide)
    (fun i hi => absurd hi (by omega))

/-- C3: dQHTc insert — record whether the fingerprint was in the cell,
always perform the write (first-empty bucket, else the RNG-chosen bucket
in `[0, n_buckets)`), and return the recorded flag; the write happens even
when the flag is true. -/
theorem dqhtc_insert_correct (hash : List Nat → Nat) (f : QuotientHashTable)
    (rng : Rng) (e fuel fp a : Nat) (d : Bool)
    (hfp : get_fingerprint hash f.pow_fingerprint_size fuel e = some fp)
    (ha : a = elemHash hash e 1 % f.n_cells)
    (hd : d = true ↔ ∃ b, b < f.n_buckets ∧ f.get_fingerprint_from_bucket a b = fp) :
    (∀ j, j < f.n_buckets → f.get_fingerprint_from_bucket a j = 0 →
      (∀ i, i < j → f.get_fingerprint_from_bucket a i ≠ 0) →
      dqht_insert hash f rng e fuel
        = some (d, f.insert_fingerprint_in_bucket a j fp, rng)) ∧
    ((∀ b, b < f.n_buckets → f.get_fingerprint_from_bucket a b ≠ 0) →
      dqht_insert hash f rng e fuel
        = some (d,
            f.insert_fingerprint_in_bucket a (rng.seq rng.idx % f.n_buckets) fp,
            rng.next) ∧
      (0 < f.n_buckets → rng.seq rng.idx % f.n_buckets < f.n_buckets)) := by
  subst ha
  have hdin : d = f.in_cell (elemHash hash e 1 % f.n_cells) fp :=
    Bool.eq_iff_iff.mpr (hd.trans (in_cell_iff f _ fp).symm)
  constructor
  · intro j hj hz hmin
    have hfind := find?_range_eq_some
      (fun idx =>
        f.get_fingerprint_from_bucket (elemHash hash e 1 % f.n_cells) idx == 0)
      f.n_buckets j hj (by simp [hz]) (fun i hi => by simpa using hmin i hi)
    rw [hdin]
    exact dqht_insert_eq_of_empty hfp hfind
  · intro hall
    have hfind := find?_range_eq_none
      (fun idx =>
        f.get_fingerprint_from_bucket (elemHash hash e 1 % f.n_cells) idx == 0)
      f.n_buckets (fun i hi => by simpa using hall i hi)
    rw [hdin]
    exact ⟨dqht_insert_eq_of_full hfp hfind, fun hB => Nat.mod_lt _ hB⟩

/-- Witness for C3: inserting item 0 into the fresh `new(4, 1, 4)` filter
writes even though nothing was detected. -/
theorem dqhtc_insert_correct_witness :
    dqht_insert sampleHash sampleQht sampleRng 0 1
      = some (false, sampleQht.insert_fingerprint_in_bucket 0 0 2, sampleRng) :=
  (dqhtc_insert_correct sampleHash sampleQht sampleRng 0 1 2 0 false (by decide)
      (by decide) (by decide)).1 0 (by decide) (by decide)
    (fun i hi => absurd hi (by omega))

/-- C9: lookup takes the filter by shared reference and returns only a
boolean, so it cannot mutate the state; a successful insert of any variant
leaves every bucket of every cell other than the addressed cell
`H(item, seed 1) mod n_cells` unchanged. -/
theorem insert_frame (hash : List Nat → Nat) :
    (∀ f rng e fuel b f' rng' a, 0 < f.n_buckets →
      a = elemHash hash e 1 % f.n_cells →
      qht_insert hash f rng e fuel = some (b, f', rng') →
      ∀ a' b', a' ≠ a → b' < f.n_buckets →
        f'.get_fingerprint_from_bucket a' b' = f.get_fingerprint_from_bucket a' b') ∧
    (∀ f rng e fuel b f' rng' a, 0 < f.n_buckets →
      a = elemHash hash e 1 % f.n_cells →
      dqht_insert hash f rng e fuel = some (b, f', rng') →
      ∀ a' b', a' ≠ a → b' < f.n_buckets →
        f'.get_fingerprint_from_bucket a' b' = f.get_fingerprint_from_bucket a' b') ∧
    (∀ f e fuel b f' a, 0 < f.n_buckets →
      a = elemHash hash e 1 % f.n_cells →
      dqqht_insert hash f e fuel = some (b, f') →
      ∀ a' b', a' ≠ a → b' < f.n_buckets →
        f'.get_fingerprint_from_bucket a' b' = f.get_fingerprint_from_bucket a' b') := by
  refine ⟨?_, ?_, ?_⟩
  · intro f rng e fuel b f' rng' a hB ha h a' b' ha' hb'
    subst ha
    obtain ⟨fp, -, hc⟩ := qht_insert_cases h
    rcases hc with ⟨-, hr⟩ | ⟨-, j, hj, hr⟩ | ⟨-, -, hr⟩ <;>
      simp only [Prod.mk.injEq] at hr <;>
      obtain ⟨-, hf', -⟩ := hr <;>
      rw [hf']
    · exact get_from_insert_ne f fp
        (List.mem_range.mp (List.mem_of_find?_eq_some hj)) hb' (Or.inl (Ne.symm ha'))
    · exact get_from_insert_ne f fp (Nat.mod_lt _ hB) hb' (Or.inl (Ne.symm ha'))
  · intro f rng e fuel b f' rng' a hB ha h a' b' ha' hb'
    subst ha
    obtain ⟨fp, -, hc⟩ := dqht_insert_cases h
    rcases hc with ⟨j, hj, hr⟩ | ⟨-, hr⟩ <;>
      simp only [Prod.mk.injEq] at hr <;>
      obtain ⟨-, hf', -⟩ := hr <;>
      rw [hf']
    · exact get_from_insert_ne f fp
        (List.mem_range.mp (List.mem_of_find?_eq_some hj)) hb' (Or.inl (Ne.symm ha'))
    · exact get_from_insert_ne f fp (Nat.mod_lt _ hB) hb' (Or.inl (Ne.symm ha'))
  · intro f e fuel b f' a hB ha h a' b' ha' hb'
    subst ha
    obtain ⟨fp, -, hr⟩ := dqqht_insert_cases h
    simp only [Prod.mk.injEq] at hr
    rw [hr.2]
    exact (insert_last_spec f _ fp hB).2.2 a' b' ha' hb'

/-- Witness for C9: the insert of item 0 (cell 0) leaves cell 1 untouched. -/
theorem insert_frame_witness :
    sampleQht1.get_fingerprint_from_bucket 1 0
      = sampleQht.get_fingerprint_from_bucket 1 0 :=
  (insert_frame sampleHash).1 sampleQht sampleRng 0 1 false sampleQht1 sampleRng 0
    (by decide) (by decide) rfl 1 0 (by decide) (by decide)


/-- C1: on a freshly constructed filter of any of the three variants,
a successful insert of `x` followed by a lookup of `x` yields `true`. -/
theorem lookup_after_insert_fresh (hash : List Nat → Nat) (M B F : Nat)
    (f : QuotientHashTable) (e fuel : Nat)
    (h1 : qht_new M B F = some f) (h2 : dqht_new M B F = some f)
    (h3 : dqqht_new M B F = some f) :
    (∀ rng b f' rng', qht_insert hash f rng e fuel = some (b, f', rng') →
      lookup hash f' e fuel = some true) ∧
    (∀ rng b f' rng', dqht_insert hash f rng e fuel = some (b, f', rng') →
      lookup hash f' e fuel = some true) ∧
    (∀ b f', dqqht_insert hash f e fuel = some (b, f') →
      lookup hash f' e fuel = some true) := by
  obtain ⟨-, hB, hF, hpow, hBpos, -, -, -, -, hbits⟩ := qht_new_spec h1
  have hBp : 0 < f.n_buckets := by omega
  have hfpb : ∀ {fp : Nat},
      get_fingerprint hash f.pow_fingerprint_size fuel e = some fp →
      fp < 2 ^ f.fingerprint_size := by
    intro fp hfp
    have hp : 0 < f.pow_fingerprint_size := by
      rw [hpow]; exact Nat.pow_pos (by norm_num)
    have h2' := (get_fingerprint_spec hfp).2 hp
    rw [hpow] at h2'
    rw [hF]
    exact h2'
  have lk : ∀ fp j, get_fingerprint hash f.pow_fingerprint_size fuel e = some fp →
      j < f.n_buckets →
      lookup hash
        (f.insert_fingerprint_in_bucket (elemHash hash e 1 % f.n_cells) j fp)
        e fuel = some true := by
    intro fp j hfp hj
    set f' := f.insert_fingerprint_in_bucket (elemHash hash e 1 % f.n_cells) j fp
      with hf'
    have hfp' : get_fingerprint hash f'.pow_fingerprint_size fuel e = some fp := hfp
    have hbj : f'.get_fingerprint_from_bucket (elemHash hash e 1 % f'.n_cells) j
        = fp := by
      have hsame := get_from_insert_same f (elemHash hash e 1 % f.n_cells) j fp
      rw [Nat.mod_eq_of_lt (hfpb hfp)] at hsame
      exact hsame
    have hcell : f'.in_cell (elemHash hash e 1 % f'.n_cells) fp = true :=
      (in_cell_iff f' _ fp).mpr ⟨j, hj, hbj⟩
    rw [lookup_eq hfp', hcell]
  have hnin : ∀ {fp : Nat},
      get_fingerprint hash f.pow_fingerprint_size fuel e = some fp →
      f.in_cell (elemHash hash e 1 % f.n_cells) fp = false := by
    intro fp hfp
    exact in_cell_eq_false f _ fp (fun bb hbb hbe =>
      (get_fingerprint_spec hfp).1
        (hbe.symm.trans (fresh_bucket_zero hbits _ bb)))
  refine ⟨?_, ?_, ?_⟩
  · intro rng b f' rng' h
    obtain ⟨fp, hfp, hc⟩ := qht_insert_cases h
    rcases hc with ⟨hin, -⟩ | ⟨-, j, hj, hr⟩ | ⟨-, -, hr⟩
    · rw [hnin hfp] at hin
      cases hin
    · simp only [Prod.mk.injEq] at hr
      obtain ⟨-, hf', -⟩ := hr
      rw [hf']
      exact lk fp j hfp (List.mem_range.mp (List.mem_of_find?_eq_some hj))
    · simp only [Prod.mk.injEq] at hr
      obtain ⟨-, hf', -⟩ := hr
      rw [hf']
      exact lk fp _ hfp (Nat.mod_lt _ hBp)
  · intro rng b f' rng' h
    obtain ⟨fp, hfp, hc⟩ := dqht_insert_cases h
    rcases hc with ⟨j, hj, hr⟩ | ⟨-, hr⟩
    · simp only [Prod.mk.injEq] at hr
      obtain ⟨-, hf', -⟩ := hr
      rw [hf']
      exact lk fp j hfp (List.mem_range.mp (List.mem_of_find?_eq_some hj))
    · simp only [Prod.mk.injEq] at hr
      obtain ⟨-, hf', -⟩ := hr
      rw [hf']
      exact lk fp _ hfp (Nat.mod_lt _ hBp)
  · intro b f' h
    obtain ⟨fp, hfp, hr⟩ := dqqht_insert_cases h
    simp only [Prod.mk.injEq] at hr
    obtain ⟨-, hf'⟩ := hr
    obtain ⟨hp1, hp2, hp3, hp4, -⟩ :=
      insert_last_params f (elemHash hash e 1 % f.n_cells) fp
    rw [← hf'] at hp1 hp2 hp3 hp4
    have hfp' : get_fingerprint hash f'.pow_fingerprint_size fuel e = some fp := by
      rw [hp4]; exact hfp
    have hlast := (insert_last_spec f (elemHash hash e 1 % f.n_cells) fp hBp).1
    rw [← hf'] at hlast
    have hbj : f'.get_fingerprint_from_bucket (elemHash hash e 1 % f'.n_cells)
        (f.n_buckets - 1) = fp := by
      rw [hp1, hlast]
      exact Nat.mod_eq_of_lt (hfpb hfp)
    have hcell : f'.in_cell (elemHash hash e 1 % f'.n_cells) fp = true :=
      (in_cell_iff f' _ fp).mpr ⟨f.n_buckets - 1, by omega, hbj⟩
    rw [lookup_eq hfp', hcell]

/-- Witness for C1 at the fresh `new(4, 1, 4)` filter and item 0 (the three
constructors yield the same state, and all three inserts write fingerprint
2 into the single bucket). -/
theorem lookup_after_insert_fresh_witness :
    lookup sampleHash sampleQht1 0 1 = some true :=
  (lookup_after_insert_fresh sampleHash 4 1 4 sampleQht 0 1 rfl rfl rfl).1
    sampleRng false sampleQht1 sampleRng rfl

/-- Characterization of one dqQHTc insert: the returned flag is the prior
`in_cell`, each bucket receives the prior content of its successor, the
last bucket receives the (reduced) fingerprint, other cells are untouched,
and the configuration fields are preserved. -/
theorem dqqht_step (hash : List Nat → Nat) {f f' : QuotientHashTable}
    {e fuel fp a : Nat} {d : Bool} (hB : 0 < f.n_buckets)
    (hfp : get_fingerprint hash f.pow_fingerprint_size fuel e = some fp)
    (ha : a = elemHash hash e 1 % f.n_cells)
    (hins : dqqht_insert hash f e fuel = some (d, f')) :
    d = f.in_cell a fp ∧
    (∀ b, b + 1 < f.n_buckets →
      f'.get_fingerprint_from_bucket a b = f.get_fingerprint_from_bucket a (b + 1)) ∧
    f'.get_fingerprint_from_bucket a (f.n_buckets - 1)
      = fp % 2 ^ f.fingerprint_size ∧
    (∀ a' b', a' ≠ a → b' < f.n_buckets →
      f'.get_fingerprint_from_bucket a' b' = f.get_fingerprint_from_bucket a' b') ∧
    f'.n_cells = f.n_cells ∧ f'.n_buckets = f.n_buckets ∧
    f'.fingerprint_size = f.fingerprint_size ∧
    f'.pow_fingerprint_size = f.pow_fingerprint_size := by
  subst ha
  obtain ⟨fp', hfp', hr⟩ := dqqht_insert_cases hins
  rw [hfp] at hfp'
  injection hfp' with hfpe
  subst hfpe
  simp only [Prod.mk.injEq] at hr
  obtain ⟨hd, hf'⟩ := hr
  subst hf'
  obtain ⟨hL1, hL2, hL3⟩ :=
    insert_last_spec f (elemHash hash e 1 % f.n_cells) fp hB
  obtain ⟨p1, p2, p3, p4, -⟩ :=
    insert_last_params f (elemHash hash e 1 % f.n_cells) fp
  exact ⟨hd, hL2, hL1, hL3, p1, p2, p3, p4⟩

/-- Specialization of `dqqht_step` to a four-bucket cell with a reduced
fingerprint: the four bucket contents after the insert. -/
theorem dqqht_step4 (hash : List Nat → Nat) {g g' : QuotientHashTable}
    {e fuel fpv a : Nat} {d : Bool} (hgB : g.n_buckets = 4)
    (hfp : get_fingerprint hash g.pow_fingerprint_size fuel e = some fpv)
    (hflt : fpv < 2 ^ g.fingerprint_size)
    (ha : a = elemHash hash e 1 % g.n_cells)
    (hins : dqqht_insert hash g e fuel = some (d, g')) :
    g'.get_fingerprint_from_bucket a 0 = g.get_fingerprint_from_bucket a 1 ∧
    g'.get_fingerprint_from_bucket a 1 = g.get_fingerprint_from_bucket a 2 ∧
    g'.get_fingerprint_from_bucket a 2 = g.get_fingerprint_from_bucket a 3 ∧
    g'.get_fingerprint_from_bucket a 3 = fpv ∧
    g'.n_cells = g.n_cells ∧ g'.n_buckets = 4 ∧
    g'.fingerprint_size = g.fingerprint_size ∧
    g'.pow_fingerprint_size = g.pow_fingerprint_size := by
  obtain ⟨-, hshift, hlast, -, p1, p2, p3, p4⟩ :=
    dqqht_step hash (by omega) hfp ha hins
  have hlast3 : g'.get_fingerprint_from_bucket a 3 = fpv := by
    have h3 : g.n_buckets - 1 = 3 := by omega
    rw [h3] at hlast
    rw [hlast]
    exact Nat.mod_eq_of_lt hflt
  exact ⟨hshift 0 (by omega), hshift 1 (by omega), hshift 2 (by omega), hlast3,
    p1, by omega, p3, p4⟩

/-- C4: dqQHTc insert records `detected = in_cell(a, fp)`, shifts the cell
left by one bucket (bucket `b` receives bucket `b+1`; bucket 0's prior
content is discarded), writes `fp` into the last bucket, and returns
`detected`; consequently with `B = 4`, five same-cell inserts with
distinct fingerprints leave exactly the last four fingerprints in buckets
0..3 in arrival order. -/
theorem dqqhtc_insert_correct (hash : List Nat → Nat) :
    (∀ f e fuel fp a d f',
      f.pow_fingerprint_size = 2 ^ f.fingerprint_size → 0 < f.n_buckets →
      get_fingerprint hash f.pow_fingerprint_size fuel e = some fp →
      a = elemHash hash e 1 % f.n_cells →
      dqqht_insert hash f e fuel = some (d, f') →
      (d = true ↔ ∃ b, b < f.n_buckets ∧ f.get_fingerprint_from_bucket a b = fp) ∧
      (∀ b, b + 1 < f.n_buckets →
        f'.get_fingerprint_from_bucket a b
          = f.get_fingerprint_from_bucket a (b + 1)) ∧
      f'.get_fingerprint_from_bucket a (f.n_buckets - 1) = fp) ∧
    (∀ M F f0 e1 e2 e3 e4 e5 fuel fp1 fp2 fp3 fp4 fp5 a
        (b1 b2 b3 b4 b5 : Bool) f1 f2 f3 f4 f5,
      dqqht_new M 4 F = some f0 →
      a = elemHash hash e1 1 % f0.n_cells →
      a = elemHash hash e2 1 % f0.n_cells →
      a = elemHash hash e3 1 % f0.n_cells →
      a = elemHash hash e4 1 % f0.n_cells →
      a = elemHash hash e5 1 % f0.n_cells →
      get_fingerprint hash f0.pow_fingerprint_size fuel e1 = some fp1 →
      get_fingerprint hash f0.pow_fingerprint_size fuel e2 = some fp2 →
      get_fingerprint hash f0.pow_fingerprint_size fuel e3 = some fp3 →
      get_fingerprint hash f0.pow_fingerprint_size fuel e4 = some fp4 →
      get_fingerprint hash f0.pow_fingerprint_size fuel e5 = some fp5 →
      (fp1 ≠ fp2 ∧ fp1 ≠ fp3 ∧ fp1 ≠ fp4 ∧ fp1 ≠ fp5 ∧ fp2 ≠ fp3 ∧ fp2 ≠ fp4 ∧
        fp2 ≠ fp5 ∧ fp3 ≠ fp4 ∧ fp3 ≠ fp5 ∧ fp4 ≠ fp5) →
      dqqht_insert hash f0 e1 fuel = some (b1, f1) →
      dqqht_insert hash f1 e2 fuel = some (b2, f2) →
      dqqht_insert hash f2 e3 fuel = some (b3, f3) →
      dqqht_insert hash f3 e4 fuel = some (b4, f4) →
      dqqht_insert hash f4 e5 fuel = some (b5, f5) →
      f5.get_fingerprint_from_bucket a 0 = fp2 ∧
      f5.get_fingerprint_from_bucket a 1 = fp3 ∧
      f5.get_fingerprint_from_bucket a 2 = fp4 ∧
      f5.get_fingerprint_from_bucket a 3 = fp5) := by
  constructor
  · intro f e fuel fp a d f' hpow hB hfp ha hins
    obtain ⟨hd, hshift, hlast, -, -, -, -, -⟩ := dqqht_step hash hB hfp ha hins
    have hfplt : fp < 2 ^ f.fingerprint_size := by
      have hp : 0 < f.pow_fingerprint_size := by
        rw [hpow]; exact Nat.pow_pos (by norm_num)
      have h2 := (get_fingerprint_spec hfp).2 hp
      rwa [hpow] at h2
    refine ⟨?_, hshift, by rw [hlast]; exact Nat.mod_eq_of_lt hfplt⟩
    rw [hd]
    exact in_cell_iff f a fp
  · intro M F f0 e1 e2 e3 e4 e5 fuel fp1 fp2 fp3 fp4 fp5 a b1 b2 b3 b4 b5
      f1 f2 f3 f4 f5 hnew ha1 ha2 ha3 ha4 ha5 hfp1 hfp2 hfp3 hfp4 hfp5 hdist
      hi1 hi2 hi3 hi4 hi5
    rw [dqqht_new_eq] at hnew
    obtain ⟨-, hB0, hF0, hpow0, -, -, -, -, -, -⟩ := qht_new_spec hnew
    have hppos : 0 < f0.pow_fingerprint_size := by
      rw [hpow0]; exact Nat.pow_pos (by norm_num)
    have hfb : ∀ {ei fpi : Nat},
        get_fingerprint hash f0.pow_fingerprint_size fuel ei = some fpi →
        fpi < 2 ^ f0.fingerprint_size := by
      intro ei fpi hfpi
      have h2 := (get_fingerprint_spec hfpi).2 hppos
      rw [hpow0] at h2
      rw [hF0]
      exact h2
    obtain ⟨s1a, s1b, s1c, s1d, q1c, q1B, q1F, q1P⟩ :=
      dqqht_step4 hash hB0 hfp1 (hfb hfp1) ha1 hi1
    obtain ⟨s2a, s2b, s2c, s2d, q2c, q2B, q2F, q2P⟩ :=
      dqqht_step4 hash q1B (by rw [q1P]; exact hfp2)
        (by rw [q1F]; exact hfb hfp2) (show a = elemHash hash e2 1 % f1.n_cells by rw [q1c]; exact ha2) hi2
    have q2Pc : f2.pow_fingerprint_size = f0.pow_fingerprint_size := q2P.trans q1P
    have q2Fc : f2.fingerprint_size = f0.fingerprint_size := q2F.trans q1F
    have q2cc : f2.n_cells = f0.n_cells := q2c.trans q1c
    obtain ⟨s3a, s3b, s3c, s3d, q3c, q3B, q3F, q3P⟩ :=
      dqqht_step4 hash q2B (by rw [q2Pc]; exact hfp3)
        (by rw [q2Fc]; exact hfb hfp3) (show a = elemHash hash e3 1 % f2.n_cells by rw [q2cc]; exact ha3) hi3
    have q3Pc : f3.pow_fingerprint_size = f0.pow_fingerprint_size := q3P.trans q2Pc
    have q3Fc : f3.fingerprint_size = f0.fingerprint_size := q3F.trans q2Fc
    have q3cc : f3.n_cells = f0.n_cells := q3c.trans q2cc
    obtain ⟨s4a, s4b, s4c, s4d, q4c, q4B, q4F, q4P⟩ :=
      dqqht_step4 hash q3B (by rw [q3Pc]; exact hfp4)
        (by rw [q3Fc]; exact hfb hfp4) (show a = elemHash hash e4 1 % f3.n_cells by rw [q3cc]; exact ha4) hi4
    have q4Pc : f4.pow_fingerprint_size = f0.pow_fingerprint_size := q4P.trans q3Pc
    have q4Fc : f4.fingerprint_size = f0.fingerprint_size := q4F.trans q3Fc
    have q4cc : f4.n_cells = f0.n_cells := q4c.trans q3cc
    obtain ⟨s5a, s5b, s5c, s5d, -, -, -, -⟩ :=
      dqqht_step4 hash q4B (by rw [q4Pc]; exact hfp5)
        (by rw [q4Fc]; exact hfb hfp5) (show a = elemHash hash e5 1 % f4.n_cells by rw [q4cc]; exact ha5) hi5
    exact ⟨by rw [s5a, s4b, s3c, s2d], by rw [s5b, s4c, s3d],
      by rw [s5c, s4d], s5d⟩

/-- Witness for C4: five inserts of elements 0, 1, 2, 4, 5 (fingerprints
2, 12, 6, 10, 4) into the single four-bucket cell of `new(16, 4, 4)` leave
buckets 0..3 holding 12, 6, 10, 4. -/
theorem dqqhtc_insert_correct_witness :
    sampleDq5.get_fingerprint_from_bucket 0 0 = 12 ∧
    sampleDq5.get_fingerprint_from_bucket 0 1 = 6 ∧
    sampleDq5.get_fingerprint_from_bucket 0 2 = 10 ∧
    sampleDq5.get_fingerprint_from_bucket 0 3 = 4 :=
  (dqqhtc_insert_correct sampleHash).2 16 4 sampleDqqht 0 1 2 4 5 1 2 12 6 10 4 0
    false false false false false sampleDq1 sampleDq2 sampleDq3 sampleDq4 sampleDq5
    rfl (by decide) (by decide) (by decide) (by decide) (by decide) (by decide)
    (by decide) (by decide) (by decide) (by decide) (by decide) rfl rfl rfl rfl rfl

end QuotientHashTable

end Qht
